import Mathlib

/-!
Verification of the change-scoped finding filter of `cargo-scout`.

The Rust sources are shallowly embedded: strings are modelled as `List Char`
(faithful for the ASCII inputs the claims are about), machine integers as
`Int`/`Nat` with explicit i32 range checks where the Rust code could
overflow, and code that can panic (an `unwrap`, an out-of-range slice, a
debug-mode arithmetic overflow) is modelled in `Option`, `none` standing
for the panic aborting the whole call.
-/

namespace CargoScout

/-- Characters of a string literal, the form the embedding works on. -/
def str (s : String) : List Char := s.data

/-- Whitespace as stripped by Rust `str::trim` (ASCII fragment). -/
def isWS (c : Char) : Bool := c == ' ' || c == '\t' || c == '\r'

/-- Rust `str::starts_with`: `p` is a literal prefix of `s`. -/
def startsWith : List Char → List Char → Bool
  | [], _ => true
  | _ :: _, [] => false
  | p :: ps, c :: cs => p == c && startsWith ps cs

/-- Rust `str::find(char)`: index of the first occurrence of `c`. -/
def findChar (c : Char) : List Char → Option Nat
  | [] => none
  | x :: xs =>
    if x == c then some 0
    else (findChar c xs).map (· + 1)

/-- Rust `str::find(&str)`: index of the first occurrence of substring `pat`. -/
def findSub (pat : List Char) : List Char → Option Nat
  | [] => if startsWith pat [] then some 0 else none
  | x :: xs =>
    if startsWith pat (x :: xs) then some 0
    else (findSub pat xs).map (· + 1)

/-- Strip leading whitespace. -/
def trimLeft (l : List Char) : List Char := l.dropWhile isWS

/-- Rust `str::trim`: strip whitespace from both ends. -/
def trim (l : List Char) : List Char :=
  ((trimLeft ((trimLeft l).reverse)).reverse)

/-- Rust `str::lines`: split on `'\n'`, a `"\r\n"` ending is also consumed;
a final fragment without a terminator is kept, an empty input has no lines. -/
def linesOf : List Char → List (List Char)
  | [] => []
  | '\r' :: '\n' :: cs => [] :: linesOf cs
  | '\n' :: cs => [] :: linesOf cs
  | c :: cs =>
    match linesOf cs with
    | [] => [[c]]
    | l :: ls => (c :: l) :: ls

/-- All characters are ASCII digits. -/
def allDigits (l : List Char) : Bool := l.all Char.isDigit

/-- Numeric value of a digit string, most significant first. -/
def digitsVal (l : List Char) : Nat :=
  l.foldl (fun acc c => acc * 10 + (c.toNat - 48)) 0

/-- Digit-string payload of Rust integer parsing: `none` unless the string
is a non-empty run of ASCII digits. -/
def digitsToNat (l : List Char) : Option Nat :=
  if l ≠ [] ∧ allDigits l then some (digitsVal l) else none

/-- Rust `i32::from_str`: optional sign, then a non-empty digit run, with
the i32 range check (overflow is an `Err`). -/
def parseI32 (l : List Char) : Option Int :=
  match l with
  | [] => none
  | c :: rest =>
    if c == '+' then
      (digitsToNat rest).bind fun n =>
        if n ≤ 2147483647 then some (n : Int) else none
    else if c == '-' then
      (digitsToNat rest).bind fun n =>
        if n ≤ 2147483648 then some (-(n : Int)) else none
    else
      (digitsToNat l).bind fun n =>
        if n ≤ 2147483647 then some (n : Int) else none

end CargoScout

namespace CargoScout.Git

/-- Struct `Section` of git.rs: one diff hunk, line numbers are Rust `i32`. -/
structure Section where
  file_name : List Char
  line_start : Int
  line_end : Int
deriving DecidableEq, Repr

/-- Struct `SectionBuilder` of git.rs. -/
structure SectionBuilder where
  file_name : Option (List Char)
  line_start : Option Int
  line_end : Option Int

/-- Constructor `SectionBuilder::new`. -/
def SectionBuilder.new : SectionBuilder := ⟨none, none, none⟩

/-- Method `SectionBuilder::build`: a `Section` only when all three fields are set. -/
def SectionBuilder.build (b : SectionBuilder) : Option Section :=
  match b.file_name, b.line_start, b.line_end with
  | some f, some s, some e => some ⟨f, s, e⟩
  | _, _, _ => none

/-- The `@@` branch of `Parser::sections` (git.rs lines 95-119), for one line
`l` with current file `file_name`. `none` models a panic: the slice `l[3..]`
out of range, a failed `unwrap` on the second `"@@"`, the `usize` underflow
when that `"@@"` is immediately at position 3, a failed `unwrap` on the
space, the slice `added[1..]` on an empty `added`, a failed `unwrap` parsing
the start number, or i32 overflow of `start + span` (debug semantics). -/
def parseHunk (file_name l : List Char) : Option Section :=
  if l.length < 3 then none
  else
    let after_ats := l.drop 3
    (findSub (str "@@") after_ats).bind fun j =>
      if j = 0 then none
      else
        let diff_lines := after_ats.take (j - 1)
        (findChar ' ' diff_lines).bind fun k =>
          let a := diff_lines.drop k
          let added := trim a
          if added.length = 0 then none
          else
            let tl := added.drop 1
            let pieces :=
              match findChar ',' tl with
              | some i => (tl.take i, tl.drop (i + 1))
              | none => (added, ([] : List Char))
            (parseI32 pieces.1).bind fun min_line_start =>
              let span := (parseI32 pieces.2).getD 1
              let line_end := min_line_start + span
              if line_end < -2147483648 ∨ 2147483647 < line_end then none
              else
                (SectionBuilder.mk (some file_name) (some min_line_start)
                  (some line_end)).build

/-- One iteration of the loop in `Parser::sections`: the possibly updated
current file name and the possibly emitted section. `none` models a panic
(in the `+++` branch: `l.find('/')` has no occurrence to unwrap). -/
def lineStep (file_name l : List Char) :
    Option (List Char × Option Section) :=
  (if startsWith (str "+++") l then
      (findChar '/' l).map fun i => l.drop (i + 1)
    else some file_name).bind fun fn =>
    if startsWith (str "@@") l then
      (parseHunk fn l).map fun s => (fn, some s)
    else some (fn, none)

/-- The loop of `Parser::sections` over the diff's lines. -/
def sectionsAux (file_name : List Char) :
    List (List Char) → Option (List Section)
  | [] => some []
  | l :: ls =>
    (lineStep file_name l).bind fun st =>
      (sectionsAux st.1 ls).map fun rest => st.2.toList ++ rest

/-- Function `Parser::sections` (git.rs lines 83-123): scan the diff line by line with
current file initialised to `""`; `none` models a panic. -/
def sections (git_diff : List Char) : Option (List Section) :=
  sectionsAux (str "") (linesOf git_diff)

end CargoScout.Git

namespace CargoScout.Scout

/-- Struct `vcs::Section` of cargo-scout-lib: one change range; the line numbers are
`u32` in the callers' tests, modelled as `Nat`. -/
structure Section where
  file_name : List Char
  line_start : Nat
  line_end : Nat
deriving DecidableEq, Repr

/-- Modelled from the spec: the `crate::linter::Location` struct is not among
the provided sources (only its callers and tests are); per the spec a finding
carries a path and an inclusive line span, constructed in the tests as
`Location { lines: [a, b], path }`. -/
structure Location where
  lines : Nat × Nat
  path : List Char
deriving DecidableEq, Repr

/-- Modelled from the spec: the `crate::linter::Lint` struct is not among the
provided sources; per the spec a finding is a location plus an opaque message,
with structural equality over the full tuple (the derived `Eq`/`Hash` used by
the deduplication set). -/
structure Lint where
  location : Location
  message : List Char
deriving DecidableEq, Repr

/-- Function `lines_in_range` of scout/mod.rs (lines 93-98). -/
def lines_in_range (lint : Lint) (git_section : Section) : Bool :=
  (lint.location.lines.1 ≤ git_section.line_start &&
    git_section.line_start ≤ lint.location.lines.2) ||
  (git_section.line_start ≤ lint.location.lines.1 &&
    lint.location.lines.1 ≤ git_section.line_end)

/-- Rust `str::replace("\\", "/")`: single-character pattern, so a map. -/
def normalizeSlashes (l : List Char) : List Char :=
  l.map fun c => if c == '\\' then '/' else c

/-- Function `files_match` of scout/mod.rs (lines 100-103). -/
def files_match (lint : Lint) (git_section : Section) : Bool :=
  normalizeSlashes lint.location.path == normalizeSlashes git_section.file_name

/-- Function `diff_in_member` of scout/mod.rs (lines 75-90): the early-return loop. -/
def diff_in_member (member : List Char) : List Section → Bool
  | [] => false
  | s :: rest =>
    if startsWith member s.file_name then true
    else diff_in_member member rest

/-- Operation `HashSet::insert` on the model of the set as its insertion-ordered list
of distinct elements. -/
def insertHS (x : Lint) (acc : List Lint) : List Lint :=
  if x ∈ acc then acc else acc ++ [x]

/-- Function `lints_from_diff` of scout/mod.rs (lines 105-127): changes outer, findings
inner, every match inserted into a set keyed by full finding identity. -/
def lints_from_diff (lints : List Lint) (diffs : List Section) : List Lint :=
  diffs.foldl
    (fun acc diff =>
      lints.foldl
        (fun acc2 lint =>
          if files_match lint diff && lines_in_range lint diff then
            insertHS lint acc2
          else acc2)
        acc)
    []

end CargoScout.Scout

namespace CargoScout.Clippy

/-- Struct `Span` of clippy.rs. -/
structure Span where
  file_name : List Char
  line_start : Int
  line_end : Int
deriving DecidableEq, Repr

/-- Struct `Message` of clippy.rs. -/
structure Message where
  rendered : List Char
  spans : List Span
deriving DecidableEq, Repr

/-- Struct `Lint` of clippy.rs. -/
structure Lint where
  package_id : List Char
  src_path : Option (List Char)
  message : Option Message
deriving DecidableEq, Repr

/-- The object-opening brace character. -/
def lbrace : Char := Char.ofNat 123

/-- The span filter of `clippy.rs` `lints` (lines 134-140). -/
def hasSpans (lint : Lint) : Bool :=
  match lint.message with
  | some m => !m.spans.isEmpty
  | none => false

/-- Function `lints` of clippy.rs (lines 129-142), parametrised by the external
`serde_json::from_str` deserializer (an out-of-scope collaborator): keep the
lines opening with a brace, deserialize each independently dropping failures,
keep only records with at least one span. -/
def lints (fromStr : List Char → Option Lint) (clippy_output : List Char) :
    List Lint :=
  (((linesOf clippy_output).filter fun l => startsWith [lbrace] l).filterMap
    fromStr).filter hasSpans

end CargoScout.Clippy

namespace CargoScout.Config

/-- The `[workspace]` table of a manifest: its member list. -/
structure Workspace where
  members : List (List Char)

/-- The part of `cargo_toml::Manifest` that `from_manifest` reads: an
optional workspace table. -/
structure Manifest where
  workspace : Option Workspace

/-- Split a path on `'/'` into raw components. -/
def splitSlash : List Char → List (List Char)
  | [] => [[]]
  | '/' :: cs => [] :: splitSlash cs
  | c :: cs =>
    match splitSlash cs with
    | [] => [[c]]
    | l :: ls => (c :: l) :: ls

/-- Rust `Path::file_name` (Unix): the final normal component, after
discarding empty and `"."` components; `none` when there is no component
left or the path ends in `".."`. -/
def fileNameOfPath (p : List Char) : Option (List Char) :=
  match ((splitSlash p).filter fun c => ¬(c = [] ∨ c = str ".")).getLast? with
  | some last => if last = str ".." then none else some last
  | none => none

/-- The member filter predicate of `CargoConfig::from_manifest` (rust.rs
lines 80-96): keep everything when `only_members` is empty, otherwise keep a
member iff its final path segment is in `only_members` (`PathBuf::from_str`
is infallible, so that failure arm is dead; a path with no final segment is
rejected). -/
def memberKeep (only_members : List (List Char)) (m : List Char) : Bool :=
  if only_members.isEmpty then true
  else
    match fileNameOfPath m with
    | some seg => only_members.contains seg
    | none => false

/-- The members list computed by `CargoConfig::from_manifest` (rust.rs lines
67-108). The `root` field (a filesystem canonicalization of the manifest's
parent directory) is external I/O and not part of any claim, so only the
`members` field is embedded. -/
def from_manifest (m : Manifest) (only_members : List (List Char)) :
    List (List Char) :=
  match m.workspace with
  | some w => w.members.filter (memberKeep only_members)
  | none => [str "."]

end CargoScout.Config

namespace CargoScout

theorem startsWith_iff_append (p s : List Char) :
    startsWith p s = true ↔ ∃ t, s = p ++ t := by
  induction p generalizing s with
  | nil =>
    simp only [startsWith, List.nil_append]
    exact ⟨fun _ => ⟨s, rfl⟩, fun _ => trivial⟩
  | cons x xs ih =>
    cases s with
    | nil =>
      simp only [startsWith]
      constructor
      · intro h; cases h
      · rintro ⟨t, ht⟩; cases ht
    | cons y ys =>
      simp only [startsWith, Bool.and_eq_true, beq_iff_eq, ih]
      constructor
      · rintro ⟨rfl, t, rfl⟩; exact ⟨t, rfl⟩
      · rintro ⟨t, ht⟩
        injection ht with h1 h2
        exact ⟨h1.symm, t, h2⟩

theorem findChar_append (c : Char) (A B : List Char) (h : c ∉ A) :
    findChar c (A ++ c :: B) = some A.length := by
  induction A with
  | nil => simp [findChar]
  | cons x xs ih =>
    have hx : (x == c) = false := by
      simp only [beq_eq_false_iff_ne]
      intro hxc
      exact h (hxc ▸ List.mem_cons_self x xs)
    have hmem : c ∉ xs := fun hc => h (List.mem_cons_of_mem x hc)
    simp only [List.cons_append, findChar, List.append_eq, hx,
      Bool.false_eq_true, if_false, ih hmem]
    rfl

theorem findChar_none (c : Char) (A : List Char) (h : c ∉ A) :
    findChar c A = none := by
  induction A with
  | nil => rfl
  | cons x xs ih =>
    have hx : (x == c) = false := by
      simp only [beq_eq_false_iff_ne]
      intro hxc
      exact h (hxc ▸ List.mem_cons_self x xs)
    simp only [findChar, hx, Bool.false_eq_true, if_false,
      ih fun hc => h (List.mem_cons_of_mem x hc)]
    rfl

theorem findSub_atat (A B : List Char) (h : '@' ∉ A) :
    findSub (str "@@") (A ++ '@' :: '@' :: B) = some A.length := by
  induction A with
  | nil => simp [findSub, str, startsWith]
  | cons x xs ih =>
    have hx : x ≠ '@' := fun hxc => h (hxc ▸ List.mem_cons_self x xs)
    have hsw : startsWith (str "@@") (x :: (xs ++ '@' :: '@' :: B)) = false := by
      simp only [str, startsWith, Bool.and_eq_false_iff, beq_eq_false_iff_ne]
      exact Or.inl (Ne.symm hx)
    simp only [List.cons_append, findSub, List.append_eq, hsw,
      Bool.false_eq_true, if_false, ih fun hc => h (List.mem_cons_of_mem x hc)]
    rfl

theorem trimLeft_cons_false {x : Char} {xs : List Char} (h : isWS x = false) :
    trimLeft (x :: xs) = x :: xs := by
  simp [trimLeft, List.dropWhile_cons, h]

theorem trimLeft_cons_space (xs : List Char) :
    trimLeft (' ' :: xs) = trimLeft xs := by
  simp [trimLeft, List.dropWhile_cons, isWS]

theorem trim_cons_space (xs : List Char) : trim (' ' :: xs) = trim xs := by
  simp [trim, trimLeft_cons_space]

theorem trim_of_ends (x y : Char) (mid : List Char)
    (hx : isWS x = false) (hy : isWS y = false) :
    trim (x :: (mid ++ [y])) = x :: (mid ++ [y]) := by
  have h1 : trimLeft (x :: (mid ++ [y])) = x :: (mid ++ [y]) :=
    trimLeft_cons_false hx
  have h2 : (x :: (mid ++ [y])).reverse = y :: (mid.reverse ++ [x]) := by
    simp
  rw [trim, h1, h2, trimLeft_cons_false hy, ← h2, List.reverse_reverse]

theorem digit_ne (d c : Char) (hd : d.isDigit = true) (hc : c.isDigit = false) :
    d ≠ c := by
  intro h
  rw [h, hc] at hd
  cases hd

theorem isWS_of_digit (d : Char) (hd : d.isDigit = true) : isWS d = false := by
  have h1 : (d == ' ') = false := beq_eq_false_iff_ne.mpr (digit_ne d ' ' hd (by decide))
  have h2 : (d == '\t') = false := beq_eq_false_iff_ne.mpr (digit_ne d '\t' hd (by decide))
  have h3 : (d == '\r') = false := beq_eq_false_iff_ne.mpr (digit_ne d '\r' hd (by decide))
  simp [isWS, h1, h2, h3]

theorem digits_not_mem (s : List Char) (hs : allDigits s = true) (c : Char)
    (hc : c.isDigit = false) : c ∉ s := by
  intro hmem
  have := List.all_eq_true.mp hs c hmem
  exact digit_ne c c this hc rfl

theorem digitsToNat_eq (s : List Char) (h1 : s ≠ []) (h2 : allDigits s = true) :
    digitsToNat s = some (digitsVal s) := by
  simp [digitsToNat, h1, h2]

theorem parseI32_digits (s : List Char) (h1 : s ≠ []) (h2 : allDigits s = true)
    (h3 : digitsVal s ≤ 2147483647) :
    parseI32 s = some ((digitsVal s : Int)) := by
  cases s with
  | nil => exact absurd rfl h1
  | cons d rest =>
    have hd : d.isDigit = true := List.all_eq_true.mp h2 d (List.mem_cons_self d rest)
    have hp : (d == '+') = false :=
      beq_eq_false_iff_ne.mpr (digit_ne d '+' hd (by decide))
    have hm : (d == '-') = false :=
      beq_eq_false_iff_ne.mpr (digit_ne d '-' hd (by decide))
    simp only [parseI32, hp, hm, Bool.false_eq_true, if_false,
      digitsToNat_eq (d :: rest) h1 h2, Option.some_bind]
    rw [if_pos h3]

theorem parseI32_plus (s : List Char) (h1 : s ≠ []) (h2 : allDigits s = true)
    (h3 : digitsVal s ≤ 2147483647) :
    parseI32 ('+' :: s) = some ((digitsVal s : Int)) := by
  simp only [parseI32, beq_self_eq_true, if_true,
    digitsToNat_eq s h1 h2, Option.some_bind]
  rw [if_pos h3]

/-- A diff hunk header whose new-file half has an explicit count:
`@@ -<old> +<newStart>,<newCount> @@`. -/
def hunkLine (old newStart newCount : List Char) : List Char :=
  str "@@ " ++ old ++ str " +" ++ newStart ++ [','] ++ newCount ++ str " @@"

/-- A diff hunk header whose new-file half has no comma:
`@@ -<old> +<newStart> @@`. -/
def hunkLineNC (old newStart : List Char) : List Char :=
  str "@@ " ++ old ++ str " +" ++ newStart ++ str " @@"

theorem parseHunk_comma (fn old s c : List Char)
    (hold1 : ' ' ∉ old) (hold2 : '@' ∉ old)
    (hs1 : s ≠ []) (hs2 : allDigits s = true)
    (hc1 : c ≠ []) (hc2 : allDigits c = true)
    (hb : digitsVal s + digitsVal c ≤ 2147483647) :
    Git.parseHunk fn (hunkLine old s c) =
      some ⟨fn, (digitsVal s : Int),
        (digitsVal s : Int) + (digitsVal c : Int)⟩ := by
  rcases List.eq_nil_or_concat c with rfl | ⟨c0, cl, rfl⟩
  · exact absurd rfl hc1
  simp only [List.concat_eq_append] at hc1 hc2 hb ⊢
  have hs' : '@' ∉ s := digits_not_mem s hs2 '@' (by decide)
  have hc' : '@' ∉ c0 ++ [cl] := digits_not_mem _ hc2 '@' (by decide)
  have hsc : ',' ∉ s := digits_not_mem s hs2 ',' (by decide)
  have hcl : cl.isDigit = true := List.all_eq_true.mp hc2 cl (by simp)
  have key : hunkLine old s (c0 ++ [cl]) =
      '@' :: '@' :: ' ' ::
        (((old ++ ' ' :: '+' :: (s ++ ',' :: (c0 ++ [cl]))) ++ [' ']) ++
          '@' :: '@' :: []) := by
    simp [hunkLine, str]
  rw [key]
  have hA : '@' ∉ (old ++ ' ' :: '+' :: (s ++ ',' :: (c0 ++ [cl]))) ++ [' '] := by
    intro hm
    rcases List.mem_append.mp hm with hm1 | hm2
    · rcases List.mem_append.mp hm1 with h | h
      · exact hold2 h
      · rcases List.mem_cons.mp h with h | h
        · exact absurd h (by decide)
        rcases List.mem_cons.mp h with h | h
        · exact absurd h (by decide)
        rcases List.mem_append.mp h with h | h
        · exact hs' h
        rcases List.mem_cons.mp h with h | h
        · exact absurd h (by decide)
        · exact hc' h
    · exact absurd (List.mem_singleton.mp hm2) (by decide)
  rw [Git.parseHunk]
  rw [if_neg (by simp)]
  simp only [List.drop_succ_cons, List.drop_zero]
  rw [findSub_atat _ [] hA, Option.some_bind]
  rw [if_neg (by simp)]
  have hlen : ((old ++ ' ' :: '+' :: (s ++ ',' :: (c0 ++ [cl]))) ++ [' ']).length - 1 =
      (old ++ ' ' :: '+' :: (s ++ ',' :: (c0 ++ [cl]))).length := by
    simp only [List.length_append, List.length_cons, List.length_nil]
    omega
  rw [hlen]
  have htake : ((((old ++ ' ' :: '+' :: (s ++ ',' :: (c0 ++ [cl]))) ++ [' ']) ++
        '@' :: '@' :: []).take
        (old ++ ' ' :: '+' :: (s ++ ',' :: (c0 ++ [cl]))).length) =
      old ++ ' ' :: '+' :: (s ++ ',' :: (c0 ++ [cl])) := by
    rw [List.append_assoc, List.take_left]
  rw [htake]
  rw [findChar_append ' ' old ('+' :: (s ++ ',' :: (c0 ++ [cl]))) hold1,
    Option.some_bind]
  rw [List.drop_left]
  have htrim : trim (' ' :: '+' :: (s ++ ',' :: (c0 ++ [cl]))) =
      '+' :: (s ++ ',' :: (c0 ++ [cl])) := by
    rw [trim_cons_space]
    have hshape : s ++ ',' :: (c0 ++ [cl]) = (s ++ ',' :: c0) ++ [cl] := by
      simp
    rw [hshape, trim_of_ends '+' cl (s ++ ',' :: c0) (by decide) (isWS_of_digit cl hcl)]
  rw [htrim]
  rw [if_neg (by simp)]
  simp only [List.drop_succ_cons, List.drop_zero]
  rw [findChar_append ',' s (c0 ++ [cl]) hsc]
  simp only [List.take_left]
  have hdropc : (s ++ ',' :: (c0 ++ [cl])).drop (s.length + 1) = c0 ++ [cl] := by
    rw [show s ++ ',' :: (c0 ++ [cl]) = (s ++ [',']) ++ (c0 ++ [cl]) by simp,
      show s.length + 1 = (s ++ [',']).length by simp, List.drop_left]
  rw [hdropc]
  have hvs : digitsVal s ≤ 2147483647 := by omega
  have hvc : digitsVal (c0 ++ [cl]) ≤ 2147483647 := by omega
  rw [parseI32_digits s hs1 hs2 hvs, Option.some_bind,
    parseI32_digits (c0 ++ [cl]) hc1 hc2 hvc, Option.getD_some]
  rw [if_neg (by omega)]
  rfl

theorem parseHunk_nc (fn old s : List Char)
    (hold1 : ' ' ∉ old) (hold2 : '@' ∉ old)
    (hs1 : s ≠ []) (hs2 : allDigits s = true)
    (hb : digitsVal s + 1 ≤ 2147483647) :
    Git.parseHunk fn (hunkLineNC old s) =
      some ⟨fn, (digitsVal s : Int), (digitsVal s : Int) + 1⟩ := by
  rcases List.eq_nil_or_concat s with rfl | ⟨s0, sl, rfl⟩
  · exact absurd rfl hs1
  simp only [List.concat_eq_append] at hs1 hs2 hb ⊢
  have hs' : '@' ∉ s0 ++ [sl] := digits_not_mem _ hs2 '@' (by decide)
  have hsc : ',' ∉ s0 ++ [sl] := digits_not_mem _ hs2 ',' (by decide)
  have hsl : sl.isDigit = true := List.all_eq_true.mp hs2 sl (by simp)
  have key : hunkLineNC old (s0 ++ [sl]) =
      '@' :: '@' :: ' ' ::
        (((old ++ ' ' :: '+' :: (s0 ++ [sl])) ++ [' ']) ++ '@' :: '@' :: []) := by
    simp [hunkLineNC, str]
  rw [key]
  have hA : '@' ∉ (old ++ ' ' :: '+' :: (s0 ++ [sl])) ++ [' '] := by
    intro hm
    rcases List.mem_append.mp hm with hm1 | hm2
    · rcases List.mem_append.mp hm1 with h | h
      · exact hold2 h
      · rcases List.mem_cons.mp h with h | h
        · exact absurd h (by decide)
        rcases List.mem_cons.mp h with h | h
        · exact absurd h (by decide)
        · exact hs' h
    · exact absurd (List.mem_singleton.mp hm2) (by decide)
  rw [Git.parseHunk]
  rw [if_neg (by simp)]
  simp only [List.drop_succ_cons, List.drop_zero]
  rw [findSub_atat _ [] hA, Option.some_bind]
  rw [if_neg (by simp)]
  have hlen : ((old ++ ' ' :: '+' :: (s0 ++ [sl])) ++ [' ']).length - 1 =
      (old ++ ' ' :: '+' :: (s0 ++ [sl])).length := by
    simp only [List.length_append, List.length_cons, List.length_nil]
    omega
  rw [hlen]
  have htake : ((((old ++ ' ' :: '+' :: (s0 ++ [sl])) ++ [' ']) ++
        '@' :: '@' :: []).take (old ++ ' ' :: '+' :: (s0 ++ [sl])).length) =
      old ++ ' ' :: '+' :: (s0 ++ [sl]) := by
    rw [List.append_assoc, List.take_left]
  rw [htake]
  rw [findChar_append ' ' old ('+' :: (s0 ++ [sl])) hold1, Option.some_bind]
  rw [List.drop_left]
  have htrim : trim (' ' :: '+' :: (s0 ++ [sl])) = '+' :: (s0 ++ [sl]) := by
    rw [trim_cons_space,
      trim_of_ends '+' sl s0 (by decide) (isWS_of_digit sl hsl)]
  rw [htrim]
  rw [if_neg (by simp)]
  simp only [List.drop_succ_cons, List.drop_zero]
  rw [findChar_none ',' (s0 ++ [sl]) hsc]
  rw [parseI32_plus (s0 ++ [sl]) hs1 hs2 (by omega), Option.some_bind]
  rw [if_neg (by simp only [parseI32, Option.getD_none]; omega)]
  have : (parseI32 []).getD 1 = 1 := rfl
  rw [this]
  rfl

theorem lineStep_other (fn l : List Char)
    (h1 : startsWith (str "+++") l = false)
    (h2 : startsWith (str "@@") l = false) :
    Git.lineStep fn l = some (fn, none) := by
  simp [Git.lineStep, h1, h2]

theorem lineStep_atat (fn l : List Char)
    (h1 : startsWith (str "+++") l = false)
    (h2 : startsWith (str "@@") l = true) :
    Git.lineStep fn l = (Git.parseHunk fn l).map fun s => (fn, some s) := by
  simp [Git.lineStep, h1, h2]

theorem sectionsAux_cons (fn l : List Char) (ls : List (List Char)) :
    Git.sectionsAux fn (l :: ls) =
      (Git.lineStep fn l).bind fun st =>
        (Git.sectionsAux st.1 ls).map fun rest => st.2.toList ++ rest := rfl

theorem hunkLine_atat (old s c : List Char) :
    startsWith (str "+++") (hunkLine old s c) = false ∧
      startsWith (str "@@") (hunkLine old s c) = true := by
  constructor <;> simp [hunkLine, str, startsWith]

end CargoScout

namespace CargoScout.Scout

theorem mem_insertHS (x l : Lint) (acc : List Lint) :
    l ∈ insertHS x acc ↔ l ∈ acc ∨ l = x := by
  unfold insertHS
  split
  · rename_i h
    constructor
    · exact Or.inl
    · rintro (h1 | rfl)
      · exact h1
      · exact h
  · simp [List.mem_append]

theorem nodup_insertHS (x : Lint) (acc : List Lint) (h : acc.Nodup) :
    (insertHS x acc).Nodup := by
  unfold insertHS
  split
  · exact h
  · rename_i hx
    refine List.Nodup.append h (List.nodup_singleton x) ?_
    intro a ha hax
    rw [List.mem_singleton] at hax
    exact hx (hax ▸ ha)

theorem mem_foldl_inner (diff : Section) (lints acc : List Lint) (l : Lint) :
    (l ∈ lints.foldl
        (fun acc2 lint =>
          if files_match lint diff && lines_in_range lint diff then
            insertHS lint acc2
          else acc2) acc) ↔
      l ∈ acc ∨
        (l ∈ lints ∧ files_match l diff = true ∧ lines_in_range l diff = true) := by
  induction lints generalizing acc with
  | nil => simp
  | cons x xs ih =>
    simp only [List.foldl_cons]
    rw [ih]
    by_cases h : (files_match x diff && lines_in_range x diff) = true
    · rw [if_pos h, mem_insertHS]
      rw [Bool.and_eq_true] at h
      constructor
      · rintro ((h1 | rfl) | ⟨h1, h2, h3⟩)
        · exact Or.inl h1
        · exact Or.inr ⟨List.mem_cons_self _ _, h.1, h.2⟩
        · exact Or.inr ⟨List.mem_cons_of_mem x h1, h2, h3⟩
      · rintro (h1 | ⟨h1, h2, h3⟩)
        · exact Or.inl (Or.inl h1)
        · rcases List.mem_cons.mp h1 with rfl | h1
          · exact Or.inl (Or.inr rfl)
          · exact Or.inr ⟨h1, h2, h3⟩
    · rw [if_neg h]
      constructor
      · rintro (h1 | ⟨h1, h2, h3⟩)
        · exact Or.inl h1
        · exact Or.inr ⟨List.mem_cons_of_mem x h1, h2, h3⟩
      · rintro (h1 | ⟨h1, h2, h3⟩)
        · exact Or.inl h1
        · rcases List.mem_cons.mp h1 with rfl | h1
          · exact absurd (by rw [h2, h3]; rfl) h
          · exact Or.inr ⟨h1, h2, h3⟩

theorem nodup_foldl_inner (diff : Section) (lints acc : List Lint)
    (h : acc.Nodup) :
    (lints.foldl
      (fun acc2 lint =>
        if files_match lint diff && lines_in_range lint diff then
          insertHS lint acc2
        else acc2) acc).Nodup := by
  induction lints generalizing acc with
  | nil => simpa
  | cons x xs ih =>
    simp only [List.foldl_cons]
    apply ih
    by_cases hc : (files_match x diff && lines_in_range x diff) = true
    · rw [if_pos hc]; exact nodup_insertHS x acc h
    · rw [if_neg hc]; exact h

theorem mem_foldl_outer (diffs : List Section) (lints acc : List Lint)
    (l : Lint) :
    (l ∈ diffs.foldl
        (fun acc diff =>
          lints.foldl
            (fun acc2 lint =>
              if files_match lint diff && lines_in_range lint diff then
                insertHS lint acc2
              else acc2) acc) acc) ↔
      l ∈ acc ∨
        (l ∈ lints ∧ ∃ d ∈ diffs,
          files_match l d = true ∧ lines_in_range l d = true) := by
  induction diffs generalizing acc with
  | nil => simp
  | cons d ds ih =>
    simp only [List.foldl_cons]
    rw [ih]
    constructor
    · rintro (h1 | ⟨h1, d', hd', h2, h3⟩)
      · rcases (mem_foldl_inner d lints acc l).mp h1 with h1 | ⟨h1, h2, h3⟩
        · exact Or.inl h1
        · exact Or.inr ⟨h1, d, List.mem_cons_self d ds, h2, h3⟩
      · exact Or.inr ⟨h1, d', List.mem_cons_of_mem d hd', h2, h3⟩
    · rintro (h1 | ⟨h1, d', hd', h2, h3⟩)
      · exact Or.inl ((mem_foldl_inner d lints acc l).mpr (Or.inl h1))
      · rcases List.mem_cons.mp hd' with rfl | hd'
        · exact Or.inl ((mem_foldl_inner d' lints acc l).mpr (Or.inr ⟨h1, h2, h3⟩))
        · exact Or.inr ⟨h1, d', hd', h2, h3⟩

theorem nodup_foldl_outer (diffs : List Section) (lints acc : List Lint)
    (h : acc.Nodup) :
    (diffs.foldl
      (fun acc diff =>
        lints.foldl
          (fun acc2 lint =>
            if files_match lint diff && lines_in_range lint diff then
              insertHS lint acc2
            else acc2) acc) acc).Nodup := by
  induction diffs generalizing acc with
  | nil => simpa
  | cons d ds ih =>
    simp only [List.foldl_cons]
    exact ih _ (nodup_foldl_inner d lints acc h)

end CargoScout.Scout

namespace CargoScout.Clippy

theorem lints_filterMap_chain (d : List Char → Option Lint)
    (L : List (List Char)) :
    ((L.filter fun l => startsWith [lbrace] l).filterMap d).filter hasSpans =
      L.filterMap fun l =>
        if startsWith [lbrace] l then
          (d l).bind fun li => if hasSpans li then some li else none
        else none := by
  induction L with
  | nil => rfl
  | cons x xs ih =>
    by_cases h1 : startsWith [lbrace] x = true
    · cases hd : d x with
      | none => simp [List.filter_cons, h1, List.filterMap_cons, hd, ih]
      | some li =>
        by_cases h2 : hasSpans li = true
        · simp [List.filter_cons, h1, List.filterMap_cons, hd, h2, ih]
        · simp only [Bool.not_eq_true] at h2
          simp [List.filter_cons, h1, List.filterMap_cons, hd, h2, ih]
    · simp only [Bool.not_eq_true] at h1
      simp [List.filter_cons, h1, List.filterMap_cons, ih]

end CargoScout.Clippy

namespace CargoScout.Scout

theorem normalizeSlashes_eq (l : List Char) :
    normalizeSlashes l = l.map fun ch => if ch = '\\' then '/' else ch := by
  unfold normalizeSlashes
  induction l with
  | nil => rfl
  | cons x xs ih =>
    simp only [List.map_cons, ih]
    by_cases h : x = '\\' <;> simp [h]

end CargoScout.Scout

namespace CargoScout

/-- C1: the claim says `Parser::sections` never fails on malformed input.
It does: on the line `"+++x"`, which has no `'/'`, the code runs
`l.find('/').unwrap()` on a `None` and panics (modelled as `none`). -/
theorem C1_counterexample_parser_panics : Git.sections (str "+++x") = none := by
  rfl

/-- C1 (amended): lines matching neither header marker are skipped and a
malformed count falls back to 1, but the parser is not total: a `+++` line
without `'/'`, or a hunk header whose start field does not parse, makes it
panic (`none`) instead of dropping the hunk. -/
theorem C1_parser_malformed_lines :
    (∀ fn l ls, startsWith (str "+++") l = false →
        startsWith (str "@@") l = false →
        Git.sectionsAux fn (l :: ls) = Git.sectionsAux fn ls) ∧
      Git.sections (str "+++ b/f\n@@ -1,2 +3,x @@") =
        some [⟨str "f", 3, 4⟩] ∧
      Git.sections (str "+++ b/f\n@@ -1,2 +x,2 @@") = none := by
  refine ⟨?_, by decide, by decide⟩
  intro fn l ls h1 h2
  rw [sectionsAux_cons, lineStep_other fn l h1 h2, Option.some_bind]
  cases Git.sectionsAux fn ls <;> rfl

/-- C1 witness: the skip clause applied to the concrete non-header line
`"x"`. -/
theorem C1_parser_malformed_lines_witness :
    Git.sectionsAux (str "") [str "x"] = Git.sectionsAux (str "") [] :=
  C1_parser_malformed_lines.1 (str "") (str "x") [] (by decide) (by decide)

/-- C2: after a file is known, a hunk header with a comma in the new-file
half yields start = the digits before the comma, count = the digits after,
end = start + count; without a comma the count defaults to 1; in particular
`@@ -33,6 +33,9 @@` yields `(f, 33, 42)` and `@@ -5 +5 @@` yields
`(f, 5, 6)`. -/
theorem C2_hunk_header_ranges :
    (∀ fn old s c, ' ' ∉ old → '@' ∉ old →
        s ≠ [] → allDigits s = true → c ≠ [] → allDigits c = true →
        digitsVal s + digitsVal c ≤ 2147483647 →
        Git.parseHunk fn (hunkLine old s c) =
          some ⟨fn, (digitsVal s : Int),
            (digitsVal s : Int) + (digitsVal c : Int)⟩) ∧
      (∀ fn old s, ' ' ∉ old → '@' ∉ old →
        s ≠ [] → allDigits s = true →
        digitsVal s + 1 ≤ 2147483647 →
        Git.parseHunk fn (hunkLineNC old s) =
          some ⟨fn, (digitsVal s : Int), (digitsVal s : Int) + 1⟩) ∧
      Git.sections (str "+++ b/f\n@@ -33,6 +33,9 @@") =
        some [⟨str "f", 33, 42⟩] ∧
      Git.sections (str "+++ b/f\n@@ -5 +5 @@") = some [⟨str "f", 5, 6⟩] :=
  ⟨parseHunk_comma, parseHunk_nc, by decide, by decide⟩

/-- C2 witness: the two general clauses applied to the concrete headers
`@@ -33,6 +33,9 @@` and `@@ -5 +5 @@`. -/
theorem C2_hunk_header_ranges_witness :
    Git.parseHunk (str "f") (hunkLine (str "-33,6") (str "33") (str "9")) =
        some ⟨str "f", (digitsVal (str "33") : Int),
          (digitsVal (str "33") : Int) + (digitsVal (str "9") : Int)⟩ ∧
      Git.parseHunk (str "f") (hunkLineNC (str "-5") (str "5")) =
        some ⟨str "f", (digitsVal (str "5") : Int),
          (digitsVal (str "5") : Int) + 1⟩ :=
  ⟨C2_hunk_header_ranges.1 (str "f") (str "-33,6") (str "33") (str "9")
      (by decide) (by decide) (by decide) (by decide) (by decide) (by decide)
      (by decide),
    C2_hunk_header_ranges.2.1 (str "f") (str "-5") (str "5")
      (by decide) (by decide) (by decide) (by decide) (by decide)⟩

/-- C3: the claim says a hunk seen before any `+++` line is dropped. It is
not: the loop's current file starts as `""` (not as an unset option), so the
hunk is emitted with the empty file name. -/
theorem C3_counterexample_prefile_hunk_emitted :
    Git.sections (str "@@ -1,2 +3,4 @@ x") = some [⟨[], 3, 7⟩] ∧
      Git.sections (str "@@ -1,2 +3,4 @@ x") ≠ some [] := by
  exact ⟨by decide, by decide⟩

/-- C3 (amended): a hunk encountered before any `+++` line is emitted, not
dropped, attributed to the empty file name (the initial current-file value);
`SectionBuilder::build`'s dropping branch is never reached from the loop. -/
theorem C3_prefile_hunk_empty_name :
    (∀ ls, Git.sectionsAux (str "") (str "@@ -1,2 +3,4 @@" :: ls) =
        (Git.sectionsAux [] ls).map fun rest => ⟨[], 3, 7⟩ :: rest) ∧
      Git.sections (str "@@ -1,2 +3,4 @@\n+++ b/f\n@@ -1,2 +5,6 @@") =
        some [⟨[], 3, 7⟩, ⟨str "f", 5, 11⟩] := by
  constructor
  · intro ls
    rw [sectionsAux_cons]
    have h1 : Git.lineStep (str "") (str "@@ -1,2 +3,4 @@") =
        some ([], some ⟨[], 3, 7⟩) := by decide
    rw [h1, Option.some_bind]
    cases Git.sectionsAux [] ls <;> rfl
  · decide

/-- C4: for well-formed ranges, `lines_in_range` is exactly inclusive
interval intersection, and boundary-touching ranges `[1,10]`/`[10,19]`
overlap. -/
theorem C4_lines_in_range_iff_intersect :
    (∀ (lint : Scout.Lint) (s : Scout.Section),
        lint.location.lines.1 ≤ lint.location.lines.2 →
        s.line_start ≤ s.line_end →
        (Scout.lines_in_range lint s = true ↔
          ∃ x, lint.location.lines.1 ≤ x ∧ x ≤ lint.location.lines.2 ∧
            s.line_start ≤ x ∧ x ≤ s.line_end)) ∧
      Scout.lines_in_range ⟨⟨(1, 10), str "foo.rs"⟩, []⟩
        ⟨str "foo.rs", 10, 19⟩ = true := by
  refine ⟨?_, by decide⟩
  intro lint s hl hs
  unfold Scout.lines_in_range
  constructor
  · intro h
    rcases Bool.or_eq_true_iff.mp h with h | h <;> rw [Bool.and_eq_true] at h
    · exact ⟨s.line_start, by simpa using h.1, by simpa using h.2,
        le_refl _, hs⟩
    · exact ⟨lint.location.lines.1, le_refl _, hl, by simpa using h.1,
        by simpa using h.2⟩
  · rintro ⟨x, h1, h2, h3, h4⟩
    simp only [Bool.or_eq_true, Bool.and_eq_true, decide_eq_true_eq]
    omega

/-- C4 witness: the intersection reading at concrete ranges `[1,10]` and
`[5,12]`. -/
theorem C4_lines_in_range_iff_intersect_witness :
    Scout.lines_in_range ⟨⟨(1, 10), str "a.rs"⟩, []⟩ ⟨str "a.rs", 5, 12⟩ =
        true ↔
      ∃ x, 1 ≤ x ∧ x ≤ 10 ∧ 5 ≤ x ∧ x ≤ 12 :=
  C4_lines_in_range_iff_intersect.1 ⟨⟨(1, 10), str "a.rs"⟩, []⟩
    ⟨str "a.rs", 5, 12⟩ (by decide) (by decide)

/-- C5: `lints_from_diff` keeps a finding iff some change matches it on both
path and lines, and the result has no duplicates — a finding matched by
several changes, or duplicated in the input, appears exactly once. -/
theorem C5_lints_from_diff_characterization :
    ∀ (lints : List Scout.Lint) (diffs : List Scout.Section),
      (∀ l, l ∈ Scout.lints_from_diff lints diffs ↔
        l ∈ lints ∧ ∃ d ∈ diffs,
          Scout.files_match l d = true ∧ Scout.lines_in_range l d = true) ∧
      (Scout.lints_from_diff lints diffs).Nodup ∧
      (∀ l, l ∈ Scout.lints_from_diff lints diffs →
        (Scout.lints_from_diff lints diffs).count l = 1) := by
  intro lints diffs
  refine ⟨?_, ?_, ?_⟩
  · intro l
    unfold Scout.lints_from_diff
    rw [Scout.mem_foldl_outer]
    simp
  · exact Scout.nodup_foldl_outer diffs lints [] List.nodup_nil
  · intro l hl
    exact List.count_eq_one_of_mem
      (Scout.nodup_foldl_outer diffs lints [] List.nodup_nil) hl

/-- C5 witness: a structurally duplicated finding overlapping two distinct
change ranges appears exactly once. -/
theorem C5_lints_from_diff_characterization_witness :
    (Scout.lints_from_diff
        [⟨⟨(2, 2), str "foo/bar.rs"⟩, str "m"⟩,
          ⟨⟨(2, 2), str "foo/bar.rs"⟩, str "m"⟩]
        [⟨str "foo/bar.rs", 0, 10⟩, ⟨str "foo/bar.rs", 1, 5⟩]).count
      ⟨⟨(2, 2), str "foo/bar.rs"⟩, str "m"⟩ = 1 :=
  (C5_lints_from_diff_characterization _ _).2.2 _ (by decide)

/-- C6: `files_match` is string equality after mapping every backslash to a
forward slash — no case folding, no canonicalization; `"foo\bar\baz.rs"`
matches `"foo/bar/baz.rs"` and `"foo.rs"` does not match `"foo1.rs"`. -/
theorem C6_files_match_characterization :
    (∀ (lint : Scout.Lint) (s : Scout.Section),
        Scout.files_match lint s = true ↔
          lint.location.path.map (fun ch => if ch = '\\' then '/' else ch) =
            s.file_name.map fun ch => if ch = '\\' then '/' else ch) ∧
      Scout.files_match ⟨⟨(1, 10), str "foo\\bar\\baz.rs"⟩, []⟩
        ⟨str "foo/bar/baz.rs", 5, 12⟩ = true ∧
      Scout.files_match ⟨⟨(1, 10), str "foo.rs"⟩, []⟩
        ⟨str "foo1.rs", 5, 12⟩ = false := by
  refine ⟨?_, by decide, by decide⟩
  intro lint s
  rw [Scout.files_match, beq_iff_eq, Scout.normalizeSlashes_eq,
    Scout.normalizeSlashes_eq]

/-- C7: `lints` produces exactly one record per line that opens with a
brace, deserializes, and has at least one span — each line dropped
independently — and every output record carries a non-empty span list. The
deserializer is the external `serde_json::from_str`, taken as a
parameter. -/
theorem C7_lints_per_line :
    ∀ (d : List Char → Option Clippy.Lint) (out : List Char),
      Clippy.lints d out =
        (linesOf out).filterMap (fun l =>
          if startsWith [Clippy.lbrace] l then
            (d l).bind fun li => if Clippy.hasSpans li then some li else none
          else none) ∧
      ∀ li ∈ Clippy.lints d out, ∃ m, li.message = some m ∧ m.spans ≠ [] := by
  intro d out
  constructor
  · exact Clippy.lints_filterMap_chain d (linesOf out)
  · intro li hli
    unfold Clippy.lints at hli
    have hsp := (List.mem_filter.mp hli).2
    unfold Clippy.hasSpans at hsp
    cases hm : li.message with
    | none => rw [hm] at hsp; cases hsp
    | some m =>
      rw [hm] at hsp
      refine ⟨m, rfl, ?_⟩
      simpa using hsp

/-- C7 witness: the span clause at a concrete single-record output. -/
theorem C7_lints_per_line_witness :
    ∃ m, (Clippy.Lint.mk (str "p") none
        (some ⟨str "r", [⟨str "a.rs", 1, 2⟩]⟩)).message = some m ∧
      m.spans ≠ [] :=
  (C7_lints_per_line
      (fun _ => some ⟨str "p", none, some ⟨str "r", [⟨str "a.rs", 1, 2⟩]⟩⟩)
      (str "\x7b")).2
    ⟨str "p", none, some ⟨str "r", [⟨str "a.rs", 1, 2⟩]⟩⟩ (by decide)

/-- C8: `diff_in_member` holds iff some section's file name has the member
as a literal string prefix; the test is not path-boundary-aware, so member
`"foo"` matches `"foobar/x.rs"`. -/
theorem C8_diff_in_member_iff :
    (∀ (member : List Char) (secs : List Scout.Section),
        Scout.diff_in_member member secs = true ↔
          ∃ s ∈ secs, ∃ t, s.file_name = member ++ t) ∧
      Scout.diff_in_member (str "foo") [⟨str "foobar/x.rs", 1, 2⟩] = true := by
  refine ⟨?_, by decide⟩
  intro member secs
  induction secs with
  | nil => simp [Scout.diff_in_member]
  | cons s rest ih =>
    unfold Scout.diff_in_member
    by_cases h : startsWith member s.file_name = true
    · rw [if_pos h]
      constructor
      · intro _
        rcases (startsWith_iff_append member s.file_name).mp h with ⟨t, ht⟩
        exact ⟨s, List.mem_cons_self _ _, t, ht⟩
      · intro _; rfl
    · rw [if_neg h, ih]
      constructor
      · rintro ⟨s', hs', t, ht⟩
        exact ⟨s', List.mem_cons_of_mem s hs', t, ht⟩
      · rintro ⟨s', hs', t, ht⟩
        rcases List.mem_cons.mp hs' with rfl | hs'
        · exact absurd ((startsWith_iff_append _ _).mpr ⟨t, ht⟩) h
        · exact ⟨s', hs', t, ht⟩

/-- C9: the claim says the members list is never empty. It can be: a
workspace manifest whose single member `"a"` meets the filter `["b"]`
produces an empty members list. -/
theorem C9_counterexample_empty_members :
    Config.from_manifest ⟨some ⟨[str "a"]⟩⟩ [str "b"] = [] := by decide

/-- C9 (amended): a non-workspace manifest yields exactly the single member
`"."`; a workspace manifest yields the workspace members whose final path
segment passes the (last-segment) filter — a list that may be empty. -/
theorem C9_members_characterization :
    (∀ only_members, Config.from_manifest ⟨none⟩ only_members = [str "."]) ∧
      (∀ (w : Config.Workspace) (only_members : List (List Char))
        (m : List Char),
        m ∈ Config.from_manifest ⟨some w⟩ only_members ↔
          m ∈ w.members ∧ (only_members = [] ∨
            ∃ seg, Config.fileNameOfPath m = some seg ∧
              seg ∈ only_members)) := by
  constructor
  · intro only_members; rfl
  · intro w only_members m
    unfold Config.from_manifest
    rw [List.mem_filter]
    constructor
    · rintro ⟨h1, h2⟩
      refine ⟨h1, ?_⟩
      unfold Config.memberKeep at h2
      by_cases he : only_members.isEmpty = true
      · exact Or.inl (List.isEmpty_iff.mp he)
      · rw [if_neg he] at h2
        cases hf : Config.fileNameOfPath m with
        | none => rw [hf] at h2; cases h2
        | some seg =>
          rw [hf] at h2
          exact Or.inr ⟨seg, rfl, by simpa using h2⟩
    · rintro ⟨h1, h2 | ⟨seg, hseg, hmem⟩⟩
      · refine ⟨h1, ?_⟩
        unfold Config.memberKeep
        rw [if_pos (by simp [h2])]
      · refine ⟨h1, ?_⟩
        unfold Config.memberKeep
        by_cases he : only_members.isEmpty = true
        · rw [if_pos he]
        · rw [if_neg he, hseg]
          simpa using hmem

/-- C10: a `+++ /dev/null` header sets the current file to `"dev/null"`
(the text after the first slash), and a following hunk is emitted attributed
to that synthetic path, not skipped. -/
theorem C10_devnull_attribution :
    (∀ fn ls, Git.sectionsAux fn (str "+++ /dev/null" :: ls) =
        Git.sectionsAux (str "dev/null") ls) ∧
      Git.sections (str "+++ /dev/null\n@@ -1,2 +3,4 @@") =
        some [⟨str "dev/null", 3, 7⟩] := by
  constructor
  · intro fn ls
    rw [sectionsAux_cons]
    have h1 : Git.lineStep fn (str "+++ /dev/null") =
        some (str "dev/null", none) := rfl
    rw [h1, Option.some_bind]
    cases Git.sectionsAux (str "dev/null") ls <;> rfl
  · decide

end CargoScout
